import Mathlib

/-!
Verification of the diff-parsing engine and the multi-agent aggregation
orchestrator of the Automated-Github-PR-Agent repository.

The Python sources (`app/diff_parser.py`, `app/agents.py`) are shallowly
embedded below: `DiffParser.parse` becomes a fold of a step function over the
lines of the input, and `AgentOrchestrator.review` becomes a pure function
over a list of opaque agent capabilities.  Python's mutable-object aliasing of
`current_hunk` (the live hunk object may already sit inside
`current_file.hunks`) is modelled by the `shared` counter of the scan state:
it counts how many references to the live hunk were already appended to the
current file's hunk list; the copies are materialised the moment the hunk can
no longer be mutated.
-/

namespace PRAgent

/-- One line of diff content (`app/diff_parser.py`, `@dataclass Change`). -/
structure Change where
  type : String
  line_num : Nat
  content : String
deriving DecidableEq

/-- A contiguous block of changes (`app/diff_parser.py`, `@dataclass Hunk`). -/
structure Hunk where
  old_start : Nat
  old_count : Nat
  new_start : Nat
  new_count : Nat
  changes : List Change
deriving DecidableEq

/-- One file's diff (`app/diff_parser.py`, `@dataclass FileChange`). -/
structure FileChange where
  path : String
  hunks : List Hunk
deriving DecidableEq

/-- The parse result (`app/diff_parser.py`, `@dataclass ParsedDiff`). -/
structure ParsedDiff where
  files : List FileChange
deriving DecidableEq

/-- Boolean list-prefix test, the model of Python `str.startswith`. -/
def lpre : List Char → List Char → Bool
  | [], _ => true
  | _ :: _, [] => false
  | a :: ps, b :: cs => a == b && lpre ps cs

/-- `beginsWith p l` models `line.startswith(p)` for `line` given as chars. -/
def beginsWith (p : String) (l : List Char) : Bool := lpre p.data l

/-- Python whitespace, as stripped by `str.strip()`. -/
def isPyWs (c : Char) : Bool :=
  c == ' ' || c == '\t' || c == '\n' || c == '\r' || c == '\x0b' || c == '\x0c'

/-- Model of Python `str.strip()`. -/
def pyStrip (l : List Char) : List Char :=
  ((l.dropWhile isPyWs).reverse.dropWhile isPyWs).reverse

/-- Maximal leading digit run and the rest, the model of a greedy regex
group over a digit class.  For this pattern greedy matching never has to
backtrack into the digit run (every following literal is a non-digit), so
maximal munch is exactly Python `re` behaviour. -/
def takeDigits : List Char → List Char × List Char
  | [] => ([], [])
  | c :: cs =>
    if c.isDigit then
      let p := takeDigits cs
      (c :: p.1, p.2)
    else ([], c :: cs)

/-- A nonempty digit group, or failure. -/
def grabDigits (l : List Char) : Option (List Char × List Char) :=
  match takeDigits l with
  | ([], _) => none
  | (ds, rest) => some (ds, rest)

/-- Consume an exact literal, or fail. -/
def dropLit : List Char → List Char → Option (List Char)
  | [], l => some l
  | _ :: _, [] => none
  | p :: ps, c :: cs => if p == c then dropLit ps cs else none

/-- Try to match the hunk-header pattern (the four digit groups of the
regular expression used at `app/diff_parser.py` line 89) at the head of the
char list, returning the raw digit groups. -/
def matchHunkAt (l : List Char) : Option (List Char × List Char × List Char × List Char) :=
  (dropLit "@@ -".data l).bind fun r1 =>
  (grabDigits r1).bind fun pa =>
  (dropLit ",".data pa.2).bind fun r3 =>
  (grabDigits r3).bind fun pb =>
  (dropLit " +".data pb.2).bind fun r5 =>
  (grabDigits r5).bind fun pc =>
  (dropLit ",".data pc.2).bind fun r7 =>
  (grabDigits r7).bind fun pd =>
  (dropLit " @@".data pd.2).bind fun _ =>
  some (pa.1, pb.1, pc.1, pd.1)

/-- Model of `re.search` for the hunk-header pattern: the leftmost position
at which the pattern matches. -/
def searchHunkHeader : List Char → Option (List Char × List Char × List Char × List Char)
  | [] => matchHunkAt []
  | c :: cs =>
    match matchHunkAt (c :: cs) with
    | some g => some g
    | none => searchHunkHeader cs

/-- Decimal value of a digit run, the model of Python `int` on a `\d+`
regex group (which can never fail there). -/
def natOfDigits (l : List Char) : Nat :=
  l.foldl (fun n c => 10 * n + (c.toNat - 48)) 0

/-- Fallible model of Python `int(s)`: succeeds exactly on nonempty
all-digit strings. -/
def intOfDigits? (l : List Char) : Option Nat :=
  if !l.isEmpty && l.all Char.isDigit then some (natOfDigits l) else none

/-- The scan state of `DiffParser.parse`.  `shared` counts the references to
the live `chunk` object that already sit at the end of `cfile`'s hunk list
(Python appends the object itself, so later mutations of the current hunk are
visible through those references); they are materialised once the hunk can no
longer change. -/
structure ParseSt where
  files : List FileChange
  cfile : Option FileChange
  chunk : Option Hunk
  shared : Nat
  cursor : Nat
deriving DecidableEq

/-- `diff --git` branch (`app/diff_parser.py` lines 71-75): commit the
in-progress FileChange, if any, and reset file/hunk state.  Note the live
hunk itself is NOT appended here; only the references already created by
earlier hunk-header lines are part of the committed file. -/
def fileMarkerStep (st : ParseSt) : ParseSt :=
  match st.cfile with
  | some f =>
    let f2 :=
      match st.chunk with
      | some h => { f with hunks := f.hunks ++ List.replicate st.shared h }
      | none => f
    { files := st.files ++ [f2], cfile := none, chunk := none, shared := 0,
      cursor := st.cursor }
  | none => { st with cfile := none, chunk := none, shared := 0 }

/-- `+++` branch (`app/diff_parser.py` lines 78-81): `path = line[6:].strip()`;
a fresh FileChange is opened unless the path equals `/dev/null`. -/
def plusMarkerStep (st : ParseSt) (l : List Char) : ParseSt :=
  let path := String.mk (pyStrip (l.drop 6))
  if path ≠ "/dev/null" then
    { st with cfile := some { path := path, hunks := [] }, shared := 0 }
  else st

/-- `@@` branch (`app/diff_parser.py` lines 84-99): first append the current
hunk to the current file (if both exist), then try the regex; on a match open
a fresh current hunk and reset the cursor, otherwise leave the current hunk
in place. -/
def hunkHeaderStep (st : ParseSt) (l : List Char) : ParseSt :=
  match searchHunkHeader l with
  | some (a, b, c, d) =>
    let newHunk : Hunk :=
      { old_start := natOfDigits a, old_count := natOfDigits b,
        new_start := natOfDigits c, new_count := natOfDigits d, changes := [] }
    match st.cfile, st.chunk with
    | some f, some h =>
      { st with
        cfile := some { f with hunks := f.hunks ++ List.replicate (st.shared + 1) h },
        chunk := some newHunk, shared := 0, cursor := natOfDigits c }
    | _, _ =>
      { st with chunk := some newHunk, shared := 0, cursor := natOfDigits c }
  | none =>
    match st.cfile, st.chunk with
    | some _, some _ => { st with shared := st.shared + 1 }
    | _, _ => st

/-- Change-line branch (`app/diff_parser.py` lines 102-122), reached only
when both a current hunk and a current file exist. -/
def changeLineStep (st : ParseSt) (l : List Char) : ParseSt :=
  match st.cfile, st.chunk with
  | some _, some h =>
    if beginsWith "+" l && !beginsWith "+++" l then
      { st with
        chunk := some { h with changes := h.changes ++
          [{ type := "add", line_num := st.cursor, content := String.mk (l.drop 1) }] },
        cursor := st.cursor + 1 }
    else if beginsWith "-" l && !beginsWith "---" l then
      { st with
        chunk := some { h with changes := h.changes ++
          [{ type := "remove", line_num := st.cursor, content := String.mk (l.drop 1) }] } }
    else if beginsWith " " l then
      { st with
        chunk := some { h with changes := h.changes ++
          [{ type := "context", line_num := st.cursor, content := String.mk (l.drop 1) }] },
        cursor := st.cursor + 1 }
    else st
  | _, _ => st

/-- One line of the scan loop of `DiffParser.parse`. -/
def stepLine (st : ParseSt) (l : List Char) : ParseSt :=
  if beginsWith "diff --git" l then fileMarkerStep st
  else if beginsWith "+++" l then plusMarkerStep st l
  else if beginsWith "@@" l then hunkHeaderStep st l
  else changeLineStep st l

/-- The epilogue of `DiffParser.parse` (lines 125-128): commit the
in-progress hunk into the in-progress file, then the file into the result. -/
def finalizeParse (st : ParseSt) : ParsedDiff :=
  match st.cfile with
  | none => { files := st.files }
  | some f =>
    let f2 :=
      match st.chunk with
      | some h => { f with hunks := f.hunks ++ List.replicate (st.shared + 1) h }
      | none => f
    { files := st.files ++ [f2] }

/-- Model of Python `diff_text.split('\n')`. -/
def splitNl : List Char → List (List Char)
  | [] => [[]]
  | c :: cs =>
    if c == '\n' then [] :: splitNl cs
    else
      match splitNl cs with
      | [] => [[c]]
      | l :: ls => (c :: l) :: ls

/-- The initial scan state of `DiffParser.parse`. -/
def initSt : ParseSt :=
  { files := [], cfile := none, chunk := none, shared := 0, cursor := 0 }

/-- `DiffParser.parse` (`app/diff_parser.py` lines 60-130). -/
def parse (s : String) : ParsedDiff :=
  finalizeParse ((splitNl s.data).foldl stepLine initSt)

/-- Variant of the `@@` branch in which the model of Python `int` is
fallible, to make explicit that the scan loop contains no failure mode:
`int` is applied only to `\d+` regex groups. -/
def hunkHeaderStepE (st : ParseSt) (l : List Char) : Except String ParseSt :=
  match searchHunkHeader l with
  | some (a, b, c, d) =>
    match intOfDigits? a, intOfDigits? b, intOfDigits? c, intOfDigits? d with
    | some a2, some b2, some c2, some d2 =>
      let newHunk : Hunk :=
        { old_start := a2, old_count := b2, new_start := c2, new_count := d2,
          changes := [] }
      match st.cfile, st.chunk with
      | some f, some h =>
        Except.ok { st with
          cfile := some { f with hunks := f.hunks ++ List.replicate (st.shared + 1) h },
          chunk := some newHunk, shared := 0, cursor := c2 }
      | _, _ =>
        Except.ok { st with chunk := some newHunk, shared := 0, cursor := c2 }
    | _, _, _, _ => Except.error "invalid literal for int"
  | none =>
    match st.cfile, st.chunk with
    | some _, some _ => Except.ok { st with shared := st.shared + 1 }
    | _, _ => Except.ok st

/-- One line of the scan loop, with the fallible `int` model. -/
def stepLineE (st : ParseSt) (l : List Char) : Except String ParseSt :=
  if beginsWith "diff --git" l then Except.ok (fileMarkerStep st)
  else if beginsWith "+++" l then Except.ok (plusMarkerStep st l)
  else if beginsWith "@@" l then hunkHeaderStepE st l
  else Except.ok (changeLineStep st l)

/-- The scan loop with the fallible `int` model: any raised error aborts. -/
def foldE : ParseSt → List (List Char) → Except String ParseSt
  | st, [] => Except.ok st
  | st, l :: ls =>
    match stepLineE st l with
    | Except.ok st2 => foldE st2 ls
    | Except.error e => Except.error e

/-- `DiffParser.parse` with the only possibly-raising operation of its body
(`int` on the regex groups) modelled fallibly. -/
def parseE (s : String) : Except String ParsedDiff :=
  (foldE initSt (splitNl s.data)).map finalizeParse

/-- A review finding (`app/agents.py`, `class Comment`; the orchestrator
emits the same six fields as a dict). -/
structure Comment where
  file : String
  line : Int
  severity : String
  category : String
  message : String
  suggestion : String
deriving DecidableEq

/-- The dedup key of `AgentOrchestrator.review` (`app/agents.py` line 112):
the STRING `f"{comment.file}:{comment.line}:{comment.message[:50]}"`. -/
def dedupKey (c : Comment) : String :=
  c.file ++ ":" ++ toString c.line ++ ":" ++ String.mk (c.message.data.take 50)

/-- The flatten-and-deduplicate loop of `review` (`app/agents.py` lines
107-122): keep a comment only when its key is not in the `seen` set (the set
is modelled as the list of keys inserted so far). -/
def dedupGo (seen : List String) : List Comment → List Comment
  | [] => []
  | c :: cs =>
    if dedupKey c ∈ seen then dedupGo seen cs
    else c :: dedupGo (dedupKey c :: seen) cs

/-- `severity_order.get(x["severity"], 3)` (`app/agents.py` lines 125-126). -/
def severityRank (s : String) : Nat :=
  if s = "high" then 0 else if s = "medium" then 1 else if s = "low" then 2 else 3

/-- Stable insertion by severity rank: the new comment goes in front of the
first element whose rank is not smaller.  Python `list.sort` is a stable
sort, and a stable sort's output is uniquely determined by its key function
and the input order, so this insertion sort has exactly the observable
behaviour of `all_comments.sort(key=...)`. -/
def insertBySeverity (c : Comment) : List Comment → List Comment
  | [] => [c]
  | d :: ds =>
    if severityRank c.severity ≤ severityRank d.severity then c :: d :: ds
    else d :: insertBySeverity c ds

/-- The final severity sort of `review` (`app/agents.py` line 126). -/
def sortBySeverity : List Comment → List Comment
  | [] => []
  | c :: cs => insertBySeverity c (sortBySeverity cs)

/-- Model of `asyncio.gather(*tasks)` with `return_exceptions` left at its
default `False`: if every task returns, the results are collected in task
order; if any task raises, the whole gather raises (the list order is the
determinisation of which exception propagates). -/
def gatherE : List (Except String (List Comment)) → Except String (List (List Comment))
  | [] => Except.ok []
  | Except.error e :: _ => Except.error e
  | Except.ok r :: rest =>
    match gatherE rest with
    | Except.ok rs => Except.ok (r :: rs)
    | Except.error e => Except.error e

/-- `AgentOrchestrator.review` (`app/agents.py` lines 101-128) over an
arbitrary registered agent set: each agent is an opaque capability that
either returns a comment list or raises.  A raise inside `await
asyncio.gather` propagates out of `review`. -/
def review (agents : List (ParsedDiff → Except String (List Comment)))
    (d : ParsedDiff) : Except String (List Comment) :=
  (gatherE (agents.map (fun a => a d))).map
    (fun results => sortBySeverity (dedupGo [] results.flatten))

/-- The value of the `new_line_num` cursor after a change list has been
appended to a hunk: each added or context change advances it by one, a
removed change leaves it unchanged. -/
def cursorAfter : Nat → List Change → Nat
  | n, [] => n
  | n, c :: cs => cursorAfter (if c.type == "remove" then n else n + 1) cs

/-- The line-cursor bookkeeping discipline of a hunk's change list, starting
from `n`: every change carries the current cursor value, and added/context
changes (only) advance the cursor. -/
def cursorOk : Nat → List Change → Bool
  | _, [] => true
  | n, c :: cs =>
    c.line_num == n && cursorOk (if c.type == "remove" then n else n + 1) cs

/-- Every hunk of the file obeys the cursor discipline from its own
`new_start`. -/
def fileOk (f : FileChange) : Prop :=
  ∀ h ∈ f.hunks, cursorOk h.new_start h.changes = true

/-- Invariant of the scan state: committed files, the in-progress file and
the in-progress hunk all obey the cursor discipline, and the global cursor
sits exactly at the end of the in-progress hunk's change list. -/
def stOk (st : ParseSt) : Prop :=
  (∀ f ∈ st.files, fileOk f) ∧
  (∀ f, st.cfile = some f → fileOk f) ∧
  (∀ h, st.chunk = some h →
    cursorOk h.new_start h.changes = true ∧
    st.cursor = cursorAfter h.new_start h.changes)

/-- Modelled from the spec's deduplication step, for comparison with the
code's loop: keep only the first occurrence of each dedup key, in
list-traversal order. -/
def keepFirstByKey : List Comment → List Comment
  | [] => []
  | c :: cs => c :: keepFirstByKey (cs.filter fun d => decide (dedupKey d ≠ dedupKey c))
termination_by l => l.length
decreasing_by
  simp only [List.length_cons]
  exact Nat.lt_succ_of_le (List.length_filter_le _ _)

/-- The exact Scenario A input of the spec. -/
def inScenarioA : String := "@@ -10,5 +10,7 @@\n line1\n+added1\n-removed1\n context\n"

/-- Scenario A input preceded by a `+++` line, so that a FileChange is open
when the hunk arrives. -/
def inScenarioA2 : String :=
  "+++ b/f\n@@ -10,5 +10,7 @@\n line1\n+added1\n-removed1\n context\n"

/-- A two-file diff: the first file's only hunk is still in progress when
the second `diff --git` marker arrives. -/
def inTwoFiles : String :=
  "diff --git a/f b/f\n+++ b/f1\n@@ -1,1 +1,1 @@\n+x\ndiff --git a/g b/g\n+++ b/f2\n@@ -2,2 +2,2 @@\n+y\n"

/-- A standard deleted-file section, with the standard `+++ /dev/null`
new-side line. -/
def inDeletedFile : String :=
  "diff --git a/x b/x\n--- a/x\n+++ /dev/null\n@@ -1,2 +0,0 @@\n-gone\n"

/-- A valid hunk followed by a malformed `@@` header followed by a change
line. -/
def inBadHeader : String := "+++ b/f\n@@ -1,1 +1,1 @@\n@@ bad @@\n+in\n"

/-- A hunk in which a removed line directly follows an added line. -/
def inRemovedNum : String := "+++ b/g\n@@ -3,1 +5,2 @@\n+a\n-b\n"

/-- The hunk that `parse` produces for `inRemovedNum`. -/
def hunkRemovedNum : Hunk :=
  ⟨3, 1, 5, 2, [⟨"add", 5, "a"⟩, ⟨"remove", 6, "b"⟩]⟩

/-- The file that `parse` produces for `inRemovedNum`. -/
def fileRemovedNum : FileChange := ⟨"g", [hunkRemovedNum]⟩

/-- Example comment of severity low. -/
def exLow : Comment := ⟨"f1", 1, "low", "logic", "m1", "s1"⟩

/-- First example comment of severity high. -/
def exHigh1 : Comment := ⟨"f2", 2, "high", "logic", "m2", "s2"⟩

/-- Example comment of severity medium. -/
def exMed : Comment := ⟨"f3", 3, "medium", "logic", "m3", "s3"⟩

/-- Second example comment of severity high. -/
def exHigh2 : Comment := ⟨"f4", 4, "high", "logic", "m4", "s4"⟩

/-- A comment whose colon-joined dedup key collides with `collB`'s although
their (file, line, message-head) triples differ. -/
def collA : Comment := ⟨"a:1", 2, "low", "logic", "m", ""⟩

/-- A comment whose colon-joined dedup key collides with `collA`'s although
their (file, line, message-head) triples differ. -/
def collB : Comment := ⟨"a", 1, "high", "security", "2:m", ""⟩

/-- Claim C1, counterexample: on the exact Scenario A input the parser
returns a `ParsedDiff` whose file list is EMPTY — it contains no Hunk at
all, contradicting the claimed single Hunk with four Changes.  The input has
no `+++` line, so no FileChange is ever open; the change branch requires
both a current hunk and a current file, so every change line is dropped, and
at end of input nothing is committed. -/
theorem c1_counterexample : parse inScenarioA = { files := [] } := rfl

/-- Claim C1, amended: with the input preceded by a `+++ b/f` line (so that
a FileChange is open), `parse` returns exactly one FileChange containing
exactly one Hunk with `new_start = 10`, whose change sequence is
context(10), added(11), removed(12), context(12) — note the removed Change
carries line 12 (the current cursor value), not 11. -/
theorem c1_amended_thm :
    parse inScenarioA2 =
      { files := [{ path := "f",
                    hunks := [⟨10, 5, 10, 7,
                      [⟨"context", 10, "line1"⟩, ⟨"add", 11, "added1"⟩,
                       ⟨"remove", 12, "removed1"⟩, ⟨"context", 12, "context"⟩]⟩] }] } := rfl

/-- Claim C3, code bug: on a two-file diff, the `diff --git` line that opens
the second file commits the first FileChange WITHOUT its in-progress hunk
(the branch at `app/diff_parser.py` lines 71-75 never appends
`current_hunk` to `current_file.hunks`): the first file comes out with an
empty hunk list, while the identical last file keeps its hunk via the
end-of-input branch (lines 125-128). -/
theorem c3_code_bug_eval :
    parse inTwoFiles =
      { files := [{ path := "f1", hunks := [] },
                  { path := "f2", hunks := [⟨2, 2, 2, 2, [⟨"add", 2, "y"⟩]⟩] }] } := rfl

/-- Claim C4, code bug: on a standard deleted-file section the line is
exactly `+++ /dev/null`, so `line[6:]` is `"ev/null"`, the guard
`path != '/dev/null'` (line 80) succeeds, and a FileChange with path
`"ev/null"` is created and keeps the section's hunk — the claim's "no
FileChange, hunks dropped" behaviour does not happen. -/
theorem c4_code_bug_eval :
    parse inDeletedFile =
      { files := [{ path := "ev/null",
                    hunks := [⟨1, 2, 0, 0, [⟨"remove", 0, "gone"⟩]⟩] }] } := rfl

/-- Claim C5, counterexample: the change line `+in` follows a malformed
`@@ bad @@` header, yet it appears in a Hunk of the result (twice, in fact):
the malformed header first committed the current hunk, which then REMAINS
current, so the following change line is appended to the already-committed
hunk, and the end-of-input commit appends the same hunk once more. -/
theorem c5_counterexample :
    parse inBadHeader =
      { files := [{ path := "f",
                    hunks := [⟨1, 1, 1, 1, [⟨"add", 1, "in"⟩]⟩,
                              ⟨1, 1, 1, 1, [⟨"add", 1, "in"⟩]⟩] }] } := rfl

/-- Claim C9, counterexample: the removed Change following the added Change
at line 5 carries `line_num = 6` (the current cursor value, i.e. the
preceding added Change's line number PLUS ONE), not the preceding change's
line number 5 as the claim states. -/
theorem c9_counterexample :
    parse inRemovedNum = { files := [fileRemovedNum] } := rfl

/-- Claim C6, counterexample: `collA` and `collB` disagree on every
component of the triple (file, line, first-50-characters-of-message), yet
their colon-joined key strings `"a:1:2:m"` coincide, so the merge step
discards `collB` — two comments whose triples differ ARE merged. -/
theorem c6_counterexample :
    dedupGo [] [collA, collB] = [collA] ∧
    ¬(collA.file = collB.file ∧ collA.line = collB.line ∧
      collA.message.data.take 50 = collB.message.data.take 50) :=
  ⟨rfl, by decide⟩

/-- Claim C2, counterexample: with two registered agents of which the second
raises, `review` does not return normally and does not keep the first
agent's comment — the exception propagates out of `asyncio.gather` (which is
called with `return_exceptions` left `False`) and aborts the whole call. -/
theorem c2_counterexample :
    review [fun _ => Except.ok [exLow], fun _ => Except.error "boom"]
      { files := [] } = Except.error "boom" := rfl

lemma takeDigits_all_digits (l : List Char) : (takeDigits l).1.all Char.isDigit = true := by
  induction l with
  | nil => rfl
  | cons c cs ih =>
    by_cases hc : c.isDigit
    · simp [takeDigits, hc, ih]
    · simp [takeDigits, hc]

lemma grabDigits_prop {l ds r : List Char} (h : grabDigits l = some (ds, r)) :
    ds ≠ [] ∧ ds.all Char.isDigit = true := by
  unfold grabDigits at h
  have had := takeDigits_all_digits l
  rcases htd : takeDigits l with ⟨fst, snd⟩
  rw [htd] at h had
  cases fst with
  | nil => simp at h
  | cons a as =>
    simp only [Option.some.injEq, Prod.mk.injEq] at h
    obtain ⟨h1, _⟩ := h
    subst h1
    exact ⟨by simp, had⟩

lemma matchHunkAt_prop {l a b c d : List Char}
    (h : matchHunkAt l = some (a, b, c, d)) :
    (a ≠ [] ∧ a.all Char.isDigit = true) ∧ (b ≠ [] ∧ b.all Char.isDigit = true) ∧
    (c ≠ [] ∧ c.all Char.isDigit = true) ∧ (d ≠ [] ∧ d.all Char.isDigit = true) := by
  simp only [matchHunkAt, Option.bind_eq_some] at h
  obtain ⟨r1, h1, ⟨a1, r2⟩, h2, r3, h3, ⟨b1, r4⟩, h4, r5, h5, ⟨c1, r6⟩, h6,
    r7, h7, ⟨d1, r8⟩, h8, r9, h9, h0⟩ := h
  simp only [Option.some.injEq, Prod.mk.injEq] at h0
  obtain ⟨ha, hb, hc, hd⟩ := h0
  subst ha; subst hb; subst hc; subst hd
  exact ⟨grabDigits_prop h2, grabDigits_prop h4, grabDigits_prop h6, grabDigits_prop h8⟩

lemma searchHunkHeader_prop {l a b c d : List Char}
    (h : searchHunkHeader l = some (a, b, c, d)) :
    (a ≠ [] ∧ a.all Char.isDigit = true) ∧ (b ≠ [] ∧ b.all Char.isDigit = true) ∧
    (c ≠ [] ∧ c.all Char.isDigit = true) ∧ (d ≠ [] ∧ d.all Char.isDigit = true) := by
  induction l with
  | nil => exact matchHunkAt_prop h
  | cons x xs ih =>
    unfold searchHunkHeader at h
    rcases hm : matchHunkAt (x :: xs) with _ | g <;> rw [hm] at h
    · exact ih h
    · obtain ⟨a1, b1, c1, d1⟩ := g
      simp only [Option.some.injEq] at h
      obtain ⟨rfl, rfl, rfl, rfl⟩ := h
      exact matchHunkAt_prop hm

lemma intOfDigits?_of_digits {ds : List Char} (h1 : ds ≠ [])
    (h2 : ds.all Char.isDigit = true) :
    intOfDigits? ds = some (natOfDigits ds) := by
  have he : ds.isEmpty = false := by cases ds <;> simp_all
  simp [intOfDigits?, he, h2]

lemma stepLineE_eq (st : ParseSt) (l : List Char) :
    stepLineE st l = Except.ok (stepLine st l) := by
  unfold stepLineE stepLine
  split_ifs with h1 h2 h3
  · rfl
  · rfl
  · unfold hunkHeaderStepE hunkHeaderStep
    rcases hs : searchHunkHeader l with _ | ⟨a, b, c, d⟩
    · cases st.cfile <;> cases st.chunk <;> rfl
    · obtain ⟨⟨ha1, ha2⟩, ⟨hb1, hb2⟩, ⟨hc1, hc2⟩, ⟨hd1, hd2⟩⟩ := searchHunkHeader_prop hs
      simp only [intOfDigits?_of_digits ha1 ha2, intOfDigits?_of_digits hb1 hb2,
          intOfDigits?_of_digits hc1 hc2, intOfDigits?_of_digits hd1 hd2]
      cases st.cfile <;> cases st.chunk <;> rfl
  · rfl

lemma foldE_eq (ls : List (List Char)) : ∀ st : ParseSt,
    foldE st ls = Except.ok (ls.foldl stepLine st) := by
  induction ls with
  | nil => intro st; rfl
  | cons l ls ih =>
    intro st
    unfold foldE
    rw [stepLineE_eq]
    exact ih (stepLine st l)

/-- Claim C8: `parse` is total.  The only operation of the scan loop that
could raise in the source (`int` applied to the regex groups) is modelled
fallibly in `parseE`; on EVERY input string the fallible parser succeeds and
agrees with `parse`, because the groups come from `\d+` and are always
nonempty digit runs.  All other operations of the loop (slicing, strip,
splitting, appends) are total, so `parse` never raises and always returns a
(possibly empty) `ParsedDiff`. -/
theorem c8_thm : ∀ s : String, parseE s = Except.ok (parse s) := by
  intro s
  unfold parseE parse
  rw [foldE_eq]
  rfl

lemma dedupGo_eq_keep (l : List Comment) : ∀ seen : List String,
    dedupGo seen l = keepFirstByKey (l.filter fun c => decide (dedupKey c ∉ seen)) := by
  induction l with
  | nil => intro seen; simp [dedupGo, keepFirstByKey]
  | cons c cs ih =>
    intro seen
    by_cases hc : dedupKey c ∈ seen
    · rw [show dedupGo seen (c :: cs) = dedupGo seen cs from by simp [dedupGo, hc]]
      rw [ih seen]
      simp [List.filter_cons, hc]
    · rw [show dedupGo seen (c :: cs) = c :: dedupGo (dedupKey c :: seen) cs from by
        simp [dedupGo, hc]]
      rw [ih (dedupKey c :: seen)]
      rw [show (c :: cs).filter (fun d => decide (dedupKey d ∉ seen)) =
          c :: cs.filter (fun d => decide (dedupKey d ∉ seen)) from by
        simp [List.filter_cons, hc]]
      rw [show keepFirstByKey (c :: cs.filter fun d => decide (dedupKey d ∉ seen)) =
          c :: keepFirstByKey ((cs.filter fun d => decide (dedupKey d ∉ seen)).filter
            fun d => decide (dedupKey d ≠ dedupKey c)) from by
        simp [keepFirstByKey]]
      congr 2
      rw [List.filter_filter]
      apply List.filter_congr
      intro d _
      by_cases h1 : dedupKey d = dedupKey c
      · simp [List.mem_cons, h1]
      · by_cases h2 : dedupKey d ∈ seen
        · simp [List.mem_cons, h1, h2]
        · simp [List.mem_cons, h1, h2]

/-- Claim C6, amended: the merge step of `review` treats two comments as
duplicates exactly when they agree on the colon-joined key STRING
`f"{file}:{line}:{message[:50]}"` (which can coincide for distinct
(file, line, first-50-characters) triples when the file or the message
contains a colon); for each key only the first occurrence in list-traversal
order is kept and every later comment with the same key is discarded
regardless of its category or severity: the loop computes exactly
`keepFirstByKey`. -/
theorem c6_amended_thm : ∀ l : List Comment, dedupGo [] l = keepFirstByKey l := by
  intro l
  rw [dedupGo_eq_keep l []]
  congr 1
  simp

lemma mem_insertBySeverity {x c : Comment} : ∀ {l : List Comment},
    x ∈ insertBySeverity c l → x = c ∨ x ∈ l := by
  intro l
  induction l with
  | nil => simp [insertBySeverity]
  | cons d ds ih =>
    unfold insertBySeverity
    split_ifs with h
    · intro hm
      rcases List.mem_cons.mp hm with h1 | h2
      · exact Or.inl h1
      · exact Or.inr h2
    · intro hm
      rcases List.mem_cons.mp hm with h1 | h2
      · exact Or.inr (h1 ▸ List.mem_cons_self d ds)
      · rcases ih h2 with h3 | h4
        · exact Or.inl h3
        · exact Or.inr (List.mem_cons_of_mem d h4)

lemma pairwise_insertBySeverity (c : Comment) : ∀ l : List Comment,
    l.Pairwise (fun a b => severityRank a.severity ≤ severityRank b.severity) →
    (insertBySeverity c l).Pairwise
      (fun a b => severityRank a.severity ≤ severityRank b.severity) := by
  intro l
  induction l with
  | nil => intro _; simp [insertBySeverity]
  | cons d ds ih =>
    intro hp
    rw [List.pairwise_cons] at hp
    obtain ⟨hd, hds⟩ := hp
    unfold insertBySeverity
    split_ifs with h
    · rw [List.pairwise_cons]
      refine ⟨?_, List.pairwise_cons.mpr ⟨hd, hds⟩⟩
      intro b hb
      rcases List.mem_cons.mp hb with h1 | h2
      · exact h1 ▸ h
      · exact Nat.le_trans h (hd b h2)
    · rw [List.pairwise_cons]
      refine ⟨?_, ih hds⟩
      intro b hb
      rcases mem_insertBySeverity hb with h1 | h2
      · exact h1 ▸ Nat.le_of_lt (Nat.lt_of_not_le h)
      · exact hd b h2

lemma pairwise_sortBySeverity (l : List Comment) :
    (sortBySeverity l).Pairwise
      (fun a b => severityRank a.severity ≤ severityRank b.severity) := by
  induction l with
  | nil => simp [sortBySeverity]
  | cons c cs ih => exact pairwise_insertBySeverity c (sortBySeverity cs) ih

lemma filter_insertBySeverity (c : Comment) (k : Nat) : ∀ l : List Comment,
    (insertBySeverity c l).filter (fun d => severityRank d.severity == k) =
      if severityRank c.severity == k
      then c :: l.filter (fun d => severityRank d.severity == k)
      else l.filter (fun d => severityRank d.severity == k) := by
  intro l
  induction l with
  | nil =>
    by_cases hc : severityRank c.severity = k <;>
      simp [insertBySeverity, List.filter_cons, beq_iff_eq, hc]
  | cons d ds ih =>
    by_cases hcd : severityRank c.severity ≤ severityRank d.severity
    · rw [show insertBySeverity c (d :: ds) = c :: d :: ds from by
        simp [insertBySeverity, hcd]]
      by_cases hc : severityRank c.severity = k <;>
        simp [List.filter_cons, beq_iff_eq, hc]
    · rw [show insertBySeverity c (d :: ds) = d :: insertBySeverity c ds from by
        simp [insertBySeverity, hcd]]
      have hlt : severityRank d.severity < severityRank c.severity := Nat.not_le.mp hcd
      rw [List.filter_cons, ih, List.filter_cons]
      by_cases hc : severityRank c.severity = k
      · have hdk : severityRank d.severity ≠ k := by omega
        simp [beq_iff_eq, hc, hdk]
      · simp [beq_iff_eq, hc]

lemma filter_sortBySeverity (l : List Comment) (k : Nat) :
    (sortBySeverity l).filter (fun d => severityRank d.severity == k) =
      l.filter (fun d => severityRank d.severity == k) := by
  induction l with
  | nil => rfl
  | cons c cs ih =>
    rw [show sortBySeverity (c :: cs) = insertBySeverity c (sortBySeverity cs) from rfl]
    rw [filter_insertBySeverity, List.filter_cons]
    by_cases hc : severityRank c.severity == k <;> simp [hc, ih]

/-- Claim C7: the final sort of `review` orders the deduplicated list by
severity rank (high = 0, medium = 1, low = 2, anything else = 3) and is
stable: the output is sorted by rank, and for every rank class the sequence
of comments of that rank is exactly the input's sequence (so two comments of
equal rank keep their relative order).  These two properties determine the
output uniquely, hence the insertion-sort model has exactly the observable
behaviour of Python's stable `list.sort`.  The concrete conjunct is the
spec's Scenario C: severities [low, high, medium, high] come out as
[high, high, medium, low] with the two high comments in original order. -/
theorem c7_thm :
    (∀ l : List Comment,
      ((sortBySeverity l).Pairwise
        (fun a b => severityRank a.severity ≤ severityRank b.severity)) ∧
      (∀ k : Nat, (sortBySeverity l).filter (fun d => severityRank d.severity == k) =
        l.filter (fun d => severityRank d.severity == k))) ∧
    sortBySeverity [exLow, exHigh1, exMed, exHigh2] = [exHigh1, exHigh2, exMed, exLow] :=
  ⟨fun l => ⟨pairwise_sortBySeverity l, fun k => filter_sortBySeverity l k⟩, rfl⟩

lemma gatherE_flatten_okNil : ∀ xs ys : List (Except String (List Comment)),
    (gatherE (xs ++ Except.ok [] :: ys)).map List.flatten =
      (gatherE (xs ++ ys)).map List.flatten := by
  intro xs
  induction xs with
  | nil =>
    intro ys
    simp only [List.nil_append]
    rw [show gatherE (Except.ok [] :: ys) =
      match gatherE ys with
      | Except.ok rs => Except.ok ([] :: rs)
      | Except.error e => Except.error e from rfl]
    cases h : gatherE ys <;> simp [Except.map]
  | cons x xs ih =>
    intro ys
    cases x with
    | error e => simp [gatherE]
    | ok r =>
      simp only [List.cons_append]
      rw [show gatherE (Except.ok r :: (xs ++ Except.ok [] :: ys)) =
        match gatherE (xs ++ Except.ok [] :: ys) with
        | Except.ok rs => Except.ok (r :: rs)
        | Except.error e => Except.error e from rfl]
      rw [show gatherE (Except.ok r :: (xs ++ ys)) =
        match gatherE (xs ++ ys) with
        | Except.ok rs => Except.ok (r :: rs)
        | Except.error e => Except.error e from rfl]
      have h := ih ys
      cases h1 : gatherE (xs ++ Except.ok [] :: ys) <;>
        cases h2 : gatherE (xs ++ ys) <;> rw [h1, h2] at h <;>
        simp_all [Except.map]

/-- Claim C2, amended: an agent whose `analyze` RAISES aborts the whole
`review` call (see the counterexample), but an agent that merely degrades to
an empty comment list — which is what the agent-boundary catch of
`BaseAgent.analyze` produces for internal faults — is invisible to the rest:
for every agent set and every diff, `review` with an empty-result agent
inserted anywhere returns exactly the same value (same comments of the other
agents, same count, same order) as `review` without it. -/
theorem c2_amended_thm :
    ∀ (as bs : List (ParsedDiff → Except String (List Comment))) (d : ParsedDiff),
      review (as ++ (fun _ => Except.ok []) :: bs) d = review (as ++ bs) d := by
  intro as bs d
  unfold review
  rw [List.map_append, List.map_cons, List.map_append]
  have h := gatherE_flatten_okNil (as.map fun a => a d) (bs.map fun a => a d)
  cases h1 : gatherE (as.map (fun a => a d) ++ Except.ok [] :: bs.map fun a => a d) <;>
    cases h2 : gatherE (as.map (fun a => a d) ++ bs.map fun a => a d) <;>
    rw [h1, h2] at h <;> simp_all [Except.map]

/-- Claim C5, amended: a line beginning with `@@` whose header fails the
four-integer pattern opens no NEW hunk — the current-hunk slot is unchanged
by that line (first conjunct; note the already-open hunk, if any, is first
committed and stays current, see C10).  Only when no current hunk exists at
that point are the following change lines dropped: from a state with no
current hunk, any run of lines containing no file marker, no `+++` marker
and no valid hunk header leaves the scan state completely unchanged, so
those change lines appear in no Hunk of the result (second conjunct). -/
theorem c5_amended_thm :
    (∀ (st : ParseSt) (l : List Char), beginsWith "@@" l = true →
      searchHunkHeader l = none → (stepLine st l).chunk = st.chunk) ∧
    (∀ (st : ParseSt) (ls : List (List Char)), st.chunk = none →
      (∀ l ∈ ls, beginsWith "diff --git" l = false ∧ beginsWith "+++" l = false ∧
        (beginsWith "@@" l = true → searchHunkHeader l = none)) →
      ls.foldl stepLine st = st) := by
  constructor
  · intro st l hpre hsearch
    rcases l with _ | ⟨c1, l⟩
    · simp [beginsWith, lpre] at hpre
    rcases l with _ | ⟨c2, l⟩
    · simp [beginsWith, lpre] at hpre
    simp only [beginsWith, lpre, Bool.and_eq_true, beq_iff_eq] at hpre
    obtain ⟨rfl, rfl, -⟩ := hpre
    rw [show stepLine st ('@' :: '@' :: l) = hunkHeaderStep st ('@' :: '@' :: l) from rfl]
    unfold hunkHeaderStep
    rw [hsearch]
    rcases hcf : st.cfile with _ | f <;> rcases hch : st.chunk with _ | hk <;>
      simp [hcf, hch]
  · intro st ls hchunk hall
    induction ls generalizing st with
    | nil => rfl
    | cons l ls ih =>
      obtain ⟨h1, h2, h3⟩ := hall l (List.mem_cons_self l ls)
      have hstep : stepLine st l = st := by
        unfold stepLine
        rw [h1, h2]
        simp only [Bool.false_eq_true, if_false]
        by_cases hq : beginsWith "@@" l = true
        · rw [if_pos hq]
          unfold hunkHeaderStep
          rw [h3 hq, hchunk]
          rcases hcf : st.cfile with _ | f <;> rfl
        · rw [if_neg hq]
          unfold changeLineStep
          rw [hchunk]
          rcases hcf : st.cfile with _ | f <;> rfl
      rw [List.foldl_cons, hstep]
      exact ih st hchunk (fun l2 hl2 => hall l2 (List.mem_cons_of_mem l hl2))

/-- Witness for the amended C5: a malformed header `@@ x` leaves the
current-hunk slot of the initial state unchanged, and from a hunk-less state
the change line `+a` is a no-op. -/
theorem c5_amended_witness :
    (stepLine initSt "@@ x".data).chunk = initSt.chunk ∧
    List.foldl stepLine initSt ["+a".data] = initSt :=
  ⟨c5_amended_thm.1 initSt "@@ x".data (by decide) (by decide),
   c5_amended_thm.2 initSt ["+a".data] rfl (by
     intro l2 hl2
     rw [List.mem_singleton] at hl2
     subst hl2
     exact ⟨rfl, rfl, fun hq => absurd hq (by decide)⟩)⟩

lemma cursorAfter_append (c : Change) : ∀ (cs : List Change) (n : Nat),
    cursorAfter n (cs ++ [c]) =
      if c.type == "remove" then cursorAfter n cs else cursorAfter n cs + 1 := by
  intro cs
  induction cs with
  | nil => intro n; simp [cursorAfter]
  | cons d ds ih =>
    intro n
    simp only [List.cons_append, cursorAfter]
    exact ih _

lemma cursorOk_append (t x : String) : ∀ (cs : List Change) (n : Nat),
    cursorOk n cs = true →
    cursorOk n (cs ++ [{ type := t, line_num := cursorAfter n cs, content := x }]) = true := by
  intro cs
  induction cs with
  | nil => intro n _; simp [cursorOk, cursorAfter]
  | cons d ds ih =>
    intro n h
    simp only [cursorOk, Bool.and_eq_true] at h
    simp only [List.cons_append, cursorOk, Bool.and_eq_true]
    exact ⟨h.1, ih _ h.2⟩

lemma fileOk_append_replicate {f : FileChange} {h : Hunk} {n : Nat}
    (hf : fileOk f) (hh : cursorOk h.new_start h.changes = true) :
    fileOk { f with hunks := f.hunks ++ List.replicate n h } := by
  intro h2 hh2
  rcases List.mem_append.mp hh2 with h3 | h3
  · exact hf h2 h3
  · rw [List.eq_of_mem_replicate h3]
    exact hh

lemma stOk_init : stOk initSt := by
  refine ⟨?_, ?_, ?_⟩ <;> simp [initSt, stOk, fileOk]

lemma stOk_mk {files : List FileChange} {cfile : Option FileChange} {chunk : Option Hunk}
    {shared cursor : Nat}
    (h1 : ∀ f ∈ files, fileOk f) (h2 : ∀ f, cfile = some f → fileOk f)
    (h3 : ∀ h, chunk = some h → cursorOk h.new_start h.changes = true ∧
      cursor = cursorAfter h.new_start h.changes) :
    stOk ⟨files, cfile, chunk, shared, cursor⟩ := ⟨h1, h2, h3⟩

lemma cfileOk_none : ∀ f : FileChange, (none : Option FileChange) = some f → fileOk f :=
  fun _ h => Option.noConfusion h

lemma cfileOk_some {f : FileChange} (hf : fileOk f) : ∀ g, some f = some g → fileOk g := by
  intro g h
  rw [Option.some.injEq] at h
  rw [← h]
  exact hf

lemma chunkOk_none (cur : Nat) : ∀ h : Hunk, (none : Option Hunk) = some h →
    cursorOk h.new_start h.changes = true ∧ cur = cursorAfter h.new_start h.changes :=
  fun _ he => Option.noConfusion he

lemma chunkOk_some {h : Hunk} {cur : Nat} (h1 : cursorOk h.new_start h.changes = true)
    (h2 : cur = cursorAfter h.new_start h.changes) :
    ∀ g, some h = some g → cursorOk g.new_start g.changes = true ∧
      cur = cursorAfter g.new_start g.changes := by
  intro g he
  rw [Option.some.injEq] at he
  rw [← he]
  exact ⟨h1, h2⟩

lemma fileOk_empty (p : String) : fileOk ⟨p, []⟩ :=
  fun h2 hm => absurd hm (List.not_mem_nil h2)

lemma stOk_stepLine {st : ParseSt} (l : List Char) (h : stOk st) : stOk (stepLine st l) := by
  obtain ⟨hf, hcf, hch⟩ := h
  unfold stepLine
  by_cases h1 : beginsWith "diff --git" l = true
  · rw [if_pos h1]
    unfold fileMarkerStep
    rcases hc : st.cfile with _ | f
    · exact stOk_mk hf cfileOk_none (chunkOk_none st.cursor)
    · rcases hcc : st.chunk with _ | hk
      · refine stOk_mk ?_ cfileOk_none (chunkOk_none st.cursor)
        intro g hg
        rcases List.mem_append.mp hg with hm | hm
        · exact hf g hm
        · rw [List.mem_singleton.mp hm]
          exact hcf f hc
      · refine stOk_mk ?_ cfileOk_none (chunkOk_none st.cursor)
        intro g hg
        rcases List.mem_append.mp hg with hm | hm
        · exact hf g hm
        · rw [List.mem_singleton.mp hm]
          exact fileOk_append_replicate (hcf f hc) ((hch hk hcc).1)
  · rw [if_neg h1]
    by_cases h2 : beginsWith "+++" l = true
    · rw [if_pos h2]
      simp only [plusMarkerStep]
      split_ifs with h3
      · exact stOk_mk hf (cfileOk_some (fileOk_empty _)) hch
      · exact ⟨hf, hcf, hch⟩
    · rw [if_neg h2]
      by_cases h3 : beginsWith "@@" l = true
      · rw [if_pos h3]
        unfold hunkHeaderStep
        rcases hs : searchHunkHeader l with _ | ⟨a, b, c, d⟩
        · rcases hcfe : st.cfile with _ | f <;> rcases hche : st.chunk with _ | hk
          · exact ⟨hf, hcf, hch⟩
          · exact ⟨hf, hcf, hch⟩
          · exact ⟨hf, hcf, hch⟩
          · exact stOk_mk hf (cfileOk_some (hcf f hcfe))
              (chunkOk_some (hch hk hche).1 (hch hk hche).2)
        · rcases hcfe : st.cfile with _ | f <;> rcases hche : st.chunk with _ | hk
          · exact stOk_mk hf cfileOk_none (chunkOk_some rfl rfl)
          · exact stOk_mk hf cfileOk_none (chunkOk_some rfl rfl)
          · exact stOk_mk hf (cfileOk_some (hcf f hcfe)) (chunkOk_some rfl rfl)
          · exact stOk_mk hf
              (cfileOk_some (fileOk_append_replicate (hcf f hcfe) ((hch hk hche).1)))
              (chunkOk_some rfl rfl)
      · rw [if_neg h3]
        unfold changeLineStep
        rcases hcfe : st.cfile with _ | f <;> rcases hche : st.chunk with _ | hk
        · exact ⟨hf, hcf, hch⟩
        · exact ⟨hf, hcf, hch⟩
        · exact ⟨hf, hcf, hch⟩
        · obtain ⟨hok, hcur⟩ := hch hk hche
          split_ifs with ha hb hc2
          · have hok2 : cursorOk hk.new_start (hk.changes ++
                [({ type := "add", line_num := st.cursor,
                    content := String.mk (l.drop 1) } : Change)]) = true := by
              rw [hcur]
              exact cursorOk_append _ _ _ _ hok
            have hcur2 : st.cursor + 1 = cursorAfter hk.new_start (hk.changes ++
                [({ type := "add", line_num := st.cursor,
                    content := String.mk (l.drop 1) } : Change)]) := by
              rw [cursorAfter_append]
              simp only [show (("add" : String) == "remove") = false from rfl,
                Bool.false_eq_true, if_false]
              rw [hcur]
            exact stOk_mk hf (cfileOk_some (hcf f hcfe)) (chunkOk_some hok2 hcur2)
          · have hok2 : cursorOk hk.new_start (hk.changes ++
                [({ type := "remove", line_num := st.cursor,
                    content := String.mk (l.drop 1) } : Change)]) = true := by
              rw [hcur]
              exact cursorOk_append _ _ _ _ hok
            have hcur2 : st.cursor = cursorAfter hk.new_start (hk.changes ++
                [({ type := "remove", line_num := st.cursor,
                    content := String.mk (l.drop 1) } : Change)]) := by
              rw [cursorAfter_append]
              simp only [show (("remove" : String) == "remove") = true from rfl, if_true]
              exact hcur
            exact stOk_mk hf (cfileOk_some (hcf f hcfe)) (chunkOk_some hok2 hcur2)
          · have hok2 : cursorOk hk.new_start (hk.changes ++
                [({ type := "context", line_num := st.cursor,
                    content := String.mk (l.drop 1) } : Change)]) = true := by
              rw [hcur]
              exact cursorOk_append _ _ _ _ hok
            have hcur2 : st.cursor + 1 = cursorAfter hk.new_start (hk.changes ++
                [({ type := "context", line_num := st.cursor,
                    content := String.mk (l.drop 1) } : Change)]) := by
              rw [cursorAfter_append]
              simp only [show (("context" : String) == "remove") = false from rfl,
                Bool.false_eq_true, if_false]
              rw [hcur]
            exact stOk_mk hf (cfileOk_some (hcf f hcfe)) (chunkOk_some hok2 hcur2)
          · exact ⟨hf, hcf, hch⟩

lemma stOk_foldl : ∀ (ls : List (List Char)) (st : ParseSt), stOk st →
    stOk (ls.foldl stepLine st) := by
  intro ls
  induction ls with
  | nil => intro st h; exact h
  | cons l ls ih =>
    intro st h
    rw [List.foldl_cons]
    exact ih _ (stOk_stepLine l h)

/-- Claim C9, amended: for every Hunk in `parse`'s result, its change list
obeys the cursor discipline from `new_start`: the first added/context Change
carries `new_start`, each later added/context Change carries the previous
added/context Change's `line_num` plus one, and every removed Change leaves
the cursor unchanged and carries the CURRENT cursor value — `new_start` if
no added/context Change precedes it, otherwise the line number of the last
preceding added/context Change PLUS ONE (not that change's own `line_num`,
as the original claim said — see the counterexample). -/
theorem c9_amended_thm : ∀ (s : String), ∀ f ∈ (parse s).files, ∀ h ∈ f.hunks,
    cursorOk h.new_start h.changes = true := by
  intro s f hfmem hk hkmem
  obtain ⟨h1, h2, h3⟩ :=
    stOk_foldl (splitNl s.data) initSt stOk_init
  revert hfmem
  unfold parse finalizeParse
  rcases hcf : ((splitNl s.data).foldl stepLine initSt).cfile with _ | f0
  · intro hfmem
    exact h1 f hfmem hk hkmem
  · rcases hch : ((splitNl s.data).foldl stepLine initSt).chunk with _ | hk0
    · intro hfmem
      rcases List.mem_append.mp hfmem with hm | hm
      · exact h1 f hm hk hkmem
      · rw [List.mem_singleton.mp hm] at hkmem
        exact h2 f0 hcf hk hkmem
    · intro hfmem
      rcases List.mem_append.mp hfmem with hm | hm
      · exact h1 f hm hk hkmem
      · rw [List.mem_singleton.mp hm] at hkmem
        rcases List.mem_append.mp hkmem with hm2 | hm2
        · exact h2 f0 hcf hk hm2
        · rw [List.eq_of_mem_replicate hm2]
          exact (h3 hk0 hch).1

/-- Witness for the amended C9: `parse` on `inRemovedNum` yields the file
`fileRemovedNum` containing `hunkRemovedNum`, and that hunk's change list
satisfies the cursor discipline from its `new_start`. -/
theorem c9_amended_witness :
    cursorOk hunkRemovedNum.new_start hunkRemovedNum.changes = true :=
  c9_amended_thm inRemovedNum fileRemovedNum (by decide) hunkRemovedNum (by decide)

lemma stepLine_atat (st : ParseSt) (r : List Char) :
    stepLine st ('@' :: '@' :: r) = hunkHeaderStep st ('@' :: '@' :: r) := rfl

lemma stepLine_plus (st : ParseSt) (r : List Char)
    (hp : beginsWith "+++" ('+' :: r) = false) :
    stepLine st ('+' :: r) = changeLineStep st ('+' :: r) := by
  unfold stepLine
  rw [show beginsWith "diff --git" ('+' :: r) = false from rfl, hp,
      show beginsWith "@@" ('+' :: r) = false from rfl]
  simp only [Bool.false_eq_true, if_false]

/-- Claim C10: from any scan state with a current file `f`, a current hunk
`hk` and no commits of `hk` yet, processing a malformed `@@` header, then a
`+`-change line, then a valid `@@` header commits `hk` on the malformed
header while keeping it current, appends the change line to the
already-committed hunk, and commits the same hunk a second time on the valid
header: the file ends up with TWO identical copies of the hunk, both
containing the change that followed the malformed header. -/
theorem c10_thm (st : ParseSt) (f : FileChange) (hk : Hunk)
    (r1 r2 r3 a b c d : List Char)
    (hcf : st.cfile = some f) (hch : st.chunk = some hk) (hsh : st.shared = 0)
    (hbad : searchHunkHeader ('@' :: '@' :: r1) = none)
    (hp : beginsWith "+++" ('+' :: r2) = false)
    (hgood : searchHunkHeader ('@' :: '@' :: r3) = some (a, b, c, d)) :
    [('@' :: '@' :: r1), ('+' :: r2), ('@' :: '@' :: r3)].foldl stepLine st =
      { files := st.files,
        cfile := some { path := f.path, hunks := f.hunks ++
          [{ hk with changes := hk.changes ++ [⟨"add", st.cursor, String.mk r2⟩] },
           { hk with changes := hk.changes ++ [⟨"add", st.cursor, String.mk r2⟩] }] },
        chunk := some ⟨natOfDigits a, natOfDigits b, natOfDigits c, natOfDigits d, []⟩,
        shared := 0, cursor := natOfDigits c } := by
  have e1 : stepLine st ('@' :: '@' :: r1) =
      ⟨st.files, some f, some hk, st.shared + 1, st.cursor⟩ := by
    rw [stepLine_atat]
    unfold hunkHeaderStep
    rw [hbad, hcf, hch]
  have e2 : stepLine (⟨st.files, some f, some hk, st.shared + 1, st.cursor⟩ : ParseSt)
      ('+' :: r2) =
      ⟨st.files, some f,
       some { hk with changes := hk.changes ++ [⟨"add", st.cursor, String.mk r2⟩] },
       st.shared + 1, st.cursor + 1⟩ := by
    rw [stepLine_plus _ _ hp]
    unfold changeLineStep
    rw [hp]
    rfl
  have e3 : stepLine (⟨st.files, some f,
      some { hk with changes := hk.changes ++ [⟨"add", st.cursor, String.mk r2⟩] },
      st.shared + 1, st.cursor + 1⟩ : ParseSt) ('@' :: '@' :: r3) =
      ⟨st.files,
       some ⟨f.path, f.hunks ++ List.replicate (st.shared + 1 + 1)
         { hk with changes := hk.changes ++ [⟨"add", st.cursor, String.mk r2⟩] }⟩,
       some ⟨natOfDigits a, natOfDigits b, natOfDigits c, natOfDigits d, []⟩,
       0, natOfDigits c⟩ := by
    rw [stepLine_atat]
    unfold hunkHeaderStep
    rw [hgood]
  rw [show [('@' :: '@' :: r1), ('+' :: r2), ('@' :: '@' :: r3)].foldl stepLine st =
      stepLine (stepLine (stepLine st ('@' :: '@' :: r1)) ('+' :: r2))
        ('@' :: '@' :: r3) from rfl]
  rw [e1, e2, e3, hsh]
  rfl

/-- Witness for C10 at a concrete state and concrete lines: the file `f`
picks up two identical copies of the hunk, both containing the `+in` change
that followed the malformed header `@@ x`. -/
theorem c10_witness :
    ["@@ x".data, "+in".data, "@@ -2,2 +7,1 @@".data].foldl stepLine
      ⟨[], some ⟨"f", []⟩, some ⟨1, 1, 1, 1, []⟩, 0, 1⟩ =
      ⟨[], some ⟨"f", [⟨1, 1, 1, 1, [⟨"add", 1, "in"⟩]⟩,
                       ⟨1, 1, 1, 1, [⟨"add", 1, "in"⟩]⟩]⟩,
       some ⟨2, 2, 7, 1, []⟩, 0, 7⟩ :=
  c10_thm ⟨[], some ⟨"f", []⟩, some ⟨1, 1, 1, 1, []⟩, 0, 1⟩ ⟨"f", []⟩ ⟨1, 1, 1, 1, []⟩
    " x".data "in".data " -2,2 +7,1 @@".data ['2'] ['2'] ['7'] ['1']
    rfl rfl rfl (by decide) (by decide) (by decide)

end PRAgent
